import Mathlib

/-!
# ghstatus: open-issue report over a paginated repository listing

A shallow embedding of `main.go`.  The GitHub client is an external
collaborator: it is a parameter (`Client`) whose answers may depend on the
whole history of calls made so far.  Package-level variables (`token`,
`orgs`, `debug`), the logger and the list of API calls made live in an
explicit `World` that every function threads through.  Pointer fields of the
client library's records are `Option`s; dereferencing `none` is the nil-pointer
panic of Go.  The recursion of `handleRepositories` is bounded by a fuel
argument counting the page fetches still allowed.
-/

namespace Ghstatus

/-! ## Data model -/

/-- Go `error` values, identified by their message. -/
abbrev Error := String

/-- Typealias for slice of strings to allow flag support (`type stringSlice []string`). -/
abbrev stringSlice := List String

/-- The record `github.User`, restricted to the pointer field the program reads. -/
structure User where
  Login : Option String
deriving DecidableEq, Repr

/-- The record `github.Repository`, restricted to the pointer fields the program reads. -/
structure Repository where
  Owner : Option User
  Name : Option String
  FullName : Option String
  OpenIssuesCount : Option Int
deriving DecidableEq, Repr

/-- The pagination fields of `github.Response` the program reads. -/
structure Response where
  NextPage : Int
  LastPage : Int
deriving DecidableEq, Repr

/-- The record `github.RepositoryListOptions` with its embedded `ListOptions`. -/
structure RepositoryListOptions where
  Affiliation : String
  Page : Int
  PerPage : Int
deriving DecidableEq, Repr

/-- One call to the API client. -/
inductive Call where
  | UsersGet
  | RepositoriesList (opt : RepositoryListOptions)
deriving DecidableEq, Repr

/-- The API client: each answer is a function of the calls made before and of the request. -/
structure Client where
  UsersGet : List Call → Except Error User
  RepositoriesList : List Call → RepositoryListOptions → Except Error (List Repository × Response)

/-- The logrus severities the program uses. -/
inductive Level where
  | Fatal
  | Warn
  | Info
  | Debug
deriving DecidableEq, Repr

/-- One record handed to the logger: severity, structured fields, message. -/
structure Entry where
  level : Level
  fields : List (String × String)
  msg : String
deriving DecidableEq, Repr

/-- What `init` writes to standard error outside the logger. -/
inductive Stderr where
  | text (s : String)
  | banner
  | flagDefaults
deriving DecidableEq, Repr

/-- The package-level variables and the observable effects so far. -/
structure World where
  token : String
  orgs : stringSlice
  debug : Bool
  logLevel : Level
  calls : List Call
  log : List Entry
  stderr : List Stderr
deriving DecidableEq, Repr

/-- How a Go function invocation ends. -/
inductive Outcome (α : Type) where
  | returned (a : α)
  | panicked
  | exited (code : Nat)
  | outOfFuel
deriving DecidableEq, Repr

/-- A command line that `flag.Parse` accepts: `-token` (when given), every `-orgs` value in
order, `-d`. -/
structure Args where
  token : Option String
  orgs : List String
  d : Bool
deriving DecidableEq, Repr

/-! ## Effects -/

/-- Hand one record to the logger. -/
def World.logAt (w : World) (level : Level) (fields : List (String × String)) (msg : String) :
    World :=
  { w with log := w.log ++ [⟨level, fields, msg⟩] }

/-- Record one API call. -/
def World.call (w : World) (c : Call) : World :=
  { w with calls := w.calls ++ [c] }

/-- Whether logrus writes a record of severity `l` when the logger level is `cfg`. -/
def Level.enabled (cfg l : Level) : Bool :=
  match l with
  | .Debug => cfg = .Debug
  | _ => true

/-- The records the logger actually writes. -/
def World.written (w : World) : List Entry :=
  w.log.filter (fun e => Level.enabled w.logLevel e.level)

/-- The verb `%d` of `fmt` on an `int`. -/
def formatInt (n : Int) : String :=
  toString n

/-! ## The program -/

/-- The method `(*stringSlice).Set`: append the value, return a nil error. -/
def stringSlice.Set (s : stringSlice) (value : String) : stringSlice × Option Error :=
  (s ++ [value], none)

/-- The expression `*repo.Owner.Login`; `none` is the nil-pointer panic. -/
def Repository.ownerLogin (repo : Repository) : Option String :=
  match repo.Owner with
  | none => none
  | some owner => owner.Login

/-- A repository record with every field the program dereferences present. -/
def Repository.allPresent (repo : Repository) : Bool :=
  repo.ownerLogin.isSome && repo.Name.isSome && repo.FullName.isSome
    && repo.OpenIssuesCount.isSome

/-- The `for _, org := range orgs` loop of `shouldHandleRepo`; `none` is a panic. -/
def shouldHandleRepo.loop (repo : Repository) : List String → Option Bool
  | [] => some false
  | org :: rest =>
    match repo.ownerLogin with
    | none => none
    | some login => if org = login then some true else shouldHandleRepo.loop repo rest

/-- The function `shouldHandleRepo`, reading the package variable `orgs`. -/
def shouldHandleRepo (orgs : stringSlice) (repo : Repository) : Option Bool :=
  shouldHandleRepo.loop repo orgs

/-- The function `handleRepo`. -/
def handleRepo (w : World) (repo : Repository) : World × Outcome (Option Error) :=
  match shouldHandleRepo w.orgs repo with
  | none => (w, .panicked)
  | some false => (w, .returned none)
  | some true =>
    match repo.ownerLogin with
    | none => (w, .panicked)
    | some owner =>
      match repo.Name with
      | none => (w, .panicked)
      | some name =>
        match repo.OpenIssuesCount with
        | none => (w, .panicked)
        | some n =>
          if n = 0 then
            (w.logAt .Debug [("owner", owner), ("name", name)] "No open issues", .returned none)
          else
            (w.logAt .Info [("owner", owner), ("name", name)]
              ("Open Issues Count: " ++ formatInt n), .returned none)

/-- The `for _, repo := range repos` loop of `handleRepositories`. -/
def handleRepositories.loop (w : World) : List Repository → World × Outcome Unit
  | [] => (w, .returned ())
  | repo :: rest =>
    match repo.FullName with
    | none => (w, .panicked)
    | some fullName =>
      match handleRepo (w.logAt .Debug [] ("Handling repo " ++ fullName ++ "...")) repo with
      | (w1, .returned none) => handleRepositories.loop w1 rest
      | (w1, .returned (some err)) => handleRepositories.loop (w1.logAt .Warn [] err) rest
      | (w1, .panicked) => (w1, .panicked)
      | (w1, .exited code) => (w1, .exited code)
      | (w1, .outOfFuel) => (w1, .outOfFuel)

/-- The options `handleRepositories` builds for one page. -/
def listOptions (page perPage : Int) : RepositoryListOptions :=
  { Affiliation := "owner,collaborator,organization_member", Page := page, PerPage := perPage }

/-- The function `handleRepositories`; `fuel` bounds the number of page fetches. -/
def handleRepositories (client : Client) :
    Nat → World → Int → Int → World × Outcome (Option Error)
  | 0, w, _, _ => (w, .outOfFuel)
  | fuel + 1, w, page, perPage =>
    match client.RepositoriesList w.calls (listOptions page perPage) with
    | .error err => (w.call (.RepositoriesList (listOptions page perPage)), .returned (some err))
    | .ok (repos, resp) =>
      match handleRepositories.loop (w.call (.RepositoriesList (listOptions page perPage))) repos with
      | (w1, .returned ()) =>
        if page = resp.LastPage ∨ resp.NextPage = 0 then (w1, .returned none)
        else handleRepositories client fuel w1 resp.NextPage perPage
      | (w1, .panicked) => (w1, .panicked)
      | (w1, .exited code) => (w1, .exited code)
      | (w1, .outOfFuel) => (w1, .outOfFuel)

/-- The function `main`; `logrus.Fatal` logs and exits with code 1. -/
def main (client : Client) (fuel : Nat) (w : World) : World × Outcome Unit :=
  match client.UsersGet w.calls with
  | .error err => ((w.call .UsersGet).logAt .Fatal [] err, .exited 1)
  | .ok user =>
    match user.Login with
    | none => (w.call .UsersGet, .panicked)
    | some username =>
      match handleRepositories client fuel
          (({ w.call .UsersGet with orgs := w.orgs ++ [username] }).logAt .Debug []
            "Getting repositories...") 1 100 with
      | (w1, .returned none) => (w1, .returned ())
      | (w1, .returned (some err)) => (w1.logAt .Fatal [] err, .exited 1)
      | (w1, .panicked) => (w1, .panicked)
      | (w1, .exited code) => (w1, .exited code)
      | (w1, .outOfFuel) => (w1, .outOfFuel)

/-- The function `init`: `env` is `os.Getenv("GITHUB_TOKEN")`, `args` the parsed flags. -/
def init (env : String) (args : Args) : World × Outcome Unit :=
  let w : World :=
    { token := args.token.getD env
      orgs := args.orgs.foldl (fun s value => (stringSlice.Set s value).1) []
      debug := args.d
      logLevel := if args.d then .Debug else .Info
      calls := []
      log := []
      stderr := [] }
  if w.token = "" then
    ({ w with stderr := [.text "A GitHub token is required.\n\n", .banner, .flagDefaults,
        .text "\n"] }, .exited 1)
  else (w, .returned ())

/-- The whole process: `init` runs before `main`. -/
def program (env : String) (args : Args) (client : Client) (fuel : Nat) : World × Outcome Unit :=
  match init env args with
  | (w, .returned ()) => main client fuel w
  | (w, .panicked) => (w, .panicked)
  | (w, .exited code) => (w, .exited code)
  | (w, .outOfFuel) => (w, .outOfFuel)

/-- The exit status of the process, when it ends. -/
def exitCode : Outcome Unit → Option Nat
  | .returned () => some 0
  | .panicked => some 2
  | .exited code => some code
  | .outOfFuel => none

/-! ## Specification vocabulary and concrete inputs -/

/-- The list-repositories calls for the given page numbers, in order: each asks for the
affiliations owner, collaborator and organization member, that page, and `perPage`. -/
def requested (perPage : Int) (pages : List Int) : List Call :=
  pages.map (fun p =>
    Call.RepositoriesList ⟨"owner,collaborator,organization_member", p, perPage⟩)

/-- Whether a call is a list-repositories call. -/
def Call.isList : Call → Bool
  | .UsersGet => false
  | .RepositoriesList _ => true

/-- The successive successful answers of the client, from history `hist` on, are the
entries of the script: the first answers the request for `page`, each later one the request
for the next page its predecessor names, always with `perPage`. -/
def Serves (client : Client) (perPage : Int) :
    List Call → Int → List (List Repository × Response) → Prop
  | _, _, [] => True
  | hist, page, r :: rest =>
    client.RepositoriesList hist ⟨"owner,collaborator,organization_member", page, perPage⟩
        = .ok r ∧
      Serves client perPage
        (hist ++ [.RepositoriesList ⟨"owner,collaborator,organization_member", page, perPage⟩])
        r.2.NextPage rest

/-- The stop test in the words of the spec: the current page equals the reported last
page, or the reported next page is the sentinel 0. -/
def stopsAt (page : Int) (resp : Response) : Bool :=
  decide (page = resp.LastPage ∨ resp.NextPage = 0)

/-- The pages a listing is asked for when its successive answers are `answers`: the first
answer is for `start`, each later one for the next page its predecessor names, and the
requests go up to and including the first answer that meets the stop test. -/
def fetchedPages (start : Int) (answers : List (List Repository × Response)) : List Int :=
  (start :: answers.map (fun r => r.2.NextPage)).take
    (((start :: answers.map (fun r => r.2.NextPage)).zip answers).findIdx
      (fun pr => stopsAt pr.1 pr.2.2) + 1)

/-- Reference description of the records one complete repository record of a batch gives
rise to: the debug line of the loop, then the report line when the owner is in the
organization set. -/
def recordsOf (orgs : stringSlice) (repo : Repository) : List Entry :=
  match repo.FullName, repo.ownerLogin, repo.Name, repo.OpenIssuesCount with
  | some fullName, some owner, some name, some n =>
    ⟨.Debug, [], "Handling repo " ++ fullName ++ "..."⟩ ::
      (if owner ∈ orgs then
        [if n = 0 then ⟨.Debug, [("owner", owner), ("name", name)], "No open issues"⟩
          else ⟨.Info, [("owner", owner), ("name", name)], "Open Issues Count: " ++ formatInt n⟩]
      else [])
  | _, _, _, _ => []

/-- Reference description of the info-level record of a repository: one exactly when the
owner is in the organization set and the open-issues count is not zero. -/
def infoRecord (orgs : stringSlice) (repo : Repository) : Option Entry :=
  match repo.ownerLogin, repo.Name, repo.OpenIssuesCount with
  | some owner, some name, some n =>
    if owner ∈ orgs ∧ n ≠ 0 then
      some ⟨.Info, [("owner", owner), ("name", name)], "Open Issues Count: " ++ formatInt n⟩
    else none
  | _, _, _ => none

/-- A client that answers the k-th list-repositories call with the k-th entry of a script
(an error past its end) and names `login` as the current user. -/
def scriptedClient (login : String) (script : List (List Repository × Response)) : Client :=
  { UsersGet := fun _ => .ok ⟨some login⟩
    RepositoriesList := fun hist _ =>
      match script[hist.countP Call.isList]? with
      | some r => .ok r
      | none => .error "no more pages" }

/-- A client that gives every list-repositories call the same successful answer. -/
def constantClient (login : String) (r : List Repository × Response) : Client :=
  { UsersGet := fun _ => .ok ⟨some login⟩
    RepositoriesList := fun _ _ => .ok r }

/-- A client whose list-repositories call always fails with `err`. -/
def failingClient (login : String) (err : Error) : Client :=
  { UsersGet := fun _ => .ok ⟨some login⟩
    RepositoriesList := fun _ _ => .error err }

/-- A client that answers page `p` with an empty batch, next page `p + 1`, last page `last`. -/
def countingClient (login : String) (last : Int) : Client :=
  { UsersGet := fun _ => .ok ⟨some login⟩
    RepositoriesList := fun _ opt =>
      .ok ([], ⟨if opt.Page < last then opt.Page + 1 else 0, last⟩) }

/-- The world of the spec scenario: organization set `["alice"]`, nothing done yet. -/
def scenarioWorld : World :=
  { token := "secret", orgs := ["alice"], debug := false, logLevel := .Info, calls := [],
    log := [], stderr := [] }

/-- The repository alice/r1 with 3 open issues. -/
def repoR1 : Repository := ⟨some ⟨some "alice"⟩, some "r1", some "alice/r1", some 3⟩

/-- The repository bob/r2 with 5 open issues. -/
def repoR2 : Repository := ⟨some ⟨some "bob"⟩, some "r2", some "bob/r2", some 5⟩

/-- The repository alice/idle with no open issue. -/
def repoIdle : Repository := ⟨some ⟨some "alice"⟩, some "idle", some "alice/idle", some 0⟩

/-- A repository record whose owner is missing. -/
def repoNoOwner : Repository := ⟨none, some "r0", some "alice/r0", some 1⟩

/-- Command line `-token secret`. -/
def scenarioArgs : Args := ⟨some "secret", [], false⟩

/-- Two pages; the first batch starts with a record whose owner is missing. -/
def brokenScript : List (List Repository × Response) :=
  [([repoNoOwner, repoR1], ⟨2, 2⟩), ([repoR2], ⟨0, 2⟩)]

/-- Two pages of complete records: alice/r1 on page 1, bob/r2 on page 2 (the last). -/
def soundScript : List (List Repository × Response) :=
  [([repoR1], ⟨2, 2⟩), ([repoR2], ⟨0, 2⟩)]

/-- Answers whose next-page values 1, 2 increase strictly but do not leave page 1 at once. -/
def stutterScript : List (List Repository × Response) :=
  [([], ⟨1, 3⟩), ([], ⟨2, 3⟩)]

/-- The answer that ends the stuttering script: no next page. -/
def stutterFinal : List Repository × Response := ([], ⟨0, 3⟩)

/-! ## Lemmas -/

/-- With the owner login present the scan of `shouldHandleRepo` decides list membership. -/
theorem shouldHandleRepo_loop_of_login (repo : Repository) (L : String)
    (h : repo.ownerLogin = some L) (O : List String) :
    shouldHandleRepo.loop repo O = some (decide (L ∈ O)) := by
  induction O with
  | nil => simp [shouldHandleRepo.loop]
  | cons org rest ih =>
    simp only [shouldHandleRepo.loop, h]
    by_cases hEq : org = L
    · simp [hEq]
    · have hne : ¬ L = org := fun h' => hEq h'.symm
      simp [hEq, hne, ih]

/-- The result of `handleRepo` on a record whose owner, name and count are present. -/
theorem handleRepo_of_present (w : World) (repo : Repository) (owner name : String) (n : Int)
    (hO : repo.ownerLogin = some owner) (hN : repo.Name = some name)
    (hC : repo.OpenIssuesCount = some n) :
    handleRepo w repo =
      ({ w with log := w.log ++
          (if owner ∈ w.orgs then
            [if n = 0 then ⟨.Debug, [("owner", owner), ("name", name)], "No open issues"⟩
              else ⟨.Info, [("owner", owner), ("name", name)],
                "Open Issues Count: " ++ formatInt n⟩]
          else []) }, .returned none) := by
  unfold handleRepo shouldHandleRepo
  rw [shouldHandleRepo_loop_of_login repo owner hO]
  by_cases hmem : owner ∈ w.orgs
  · by_cases hn : n = 0
    · simp [hmem, hO, hN, hC, hn, World.logAt]
    · simp [hmem, hO, hN, hC, hn, World.logAt]
  · simp [hmem]

/-- A complete record has all four fields. -/
theorem allPresent_fields (repo : Repository) (h : repo.allPresent = true) :
    ∃ fullName owner name n, repo.FullName = some fullName ∧ repo.ownerLogin = some owner ∧
      repo.Name = some name ∧ repo.OpenIssuesCount = some n := by
  unfold Repository.allPresent at h
  simp only [Bool.and_eq_true, Option.isSome_iff_exists] at h
  obtain ⟨⟨⟨⟨o, ho⟩, ⟨nm, hnm⟩⟩, ⟨f, hf⟩⟩, ⟨c, hc⟩⟩ := h
  exact ⟨f, o, nm, c, hf, ho, hnm, hc⟩

/-- On complete records the batch loop returns normally and only appends log records. -/
theorem loop_of_present (batch : List Repository) (hwf : ∀ r ∈ batch, r.allPresent = true)
    (w : World) :
    handleRepositories.loop w batch =
      ({ w with log := w.log ++ batch.flatMap (recordsOf w.orgs) }, .returned ()) := by
  induction batch generalizing w with
  | nil => simp [handleRepositories.loop]
  | cons repo rest ih =>
    obtain ⟨f, o, nm, c, hf, ho, hnm, hc⟩ := allPresent_fields repo (hwf repo (by simp))
    have hrest : ∀ r ∈ rest, r.allPresent = true := fun r hr => hwf r (by simp [hr])
    simp only [handleRepositories.loop, hf]
    rw [handleRepo_of_present _ repo o nm c ho hnm hc]
    simp only [ih hrest]
    simp [World.logAt, recordsOf, hf, ho, hnm, hc, List.flatMap_cons]

/-- The info-level records among those of one repository. -/
theorem recordsOf_info (orgs : stringSlice) (repo : Repository)
    (h : repo.allPresent = true) :
    (recordsOf orgs repo).filter (fun e => e.level = .Info) = (infoRecord orgs repo).toList := by
  obtain ⟨f, o, nm, c, hf, ho, hnm, hc⟩ := allPresent_fields repo h
  by_cases hmem : o ∈ orgs
  · by_cases hn : c = 0
    · simp [recordsOf, infoRecord, hf, ho, hnm, hc, hmem, hn]
    · simp [recordsOf, infoRecord, hf, ho, hnm, hc, hmem, hn]
  · simp [recordsOf, infoRecord, hf, ho, hnm, hc, hmem]

/-- The info-level records among those of a batch. -/
theorem flatMap_recordsOf_info (orgs : stringSlice) (batch : List Repository)
    (hwf : ∀ r ∈ batch, r.allPresent = true) :
    (batch.flatMap (recordsOf orgs)).filter (fun e => e.level = .Info)
      = batch.filterMap (infoRecord orgs) := by
  induction batch with
  | nil => simp
  | cons repo rest ih =>
    have hrest : ∀ r ∈ rest, r.allPresent = true := fun r hr => hwf r (by simp [hr])
    rw [List.flatMap_cons, List.filter_append, recordsOf_info orgs repo (hwf repo (by simp)),
      ih hrest]
    cases h : infoRecord orgs repo <;> simp [List.filterMap_cons, h]

/-- The function `handleRepo` writes neither `orgs` nor the list of API calls. -/
theorem handleRepo_frame (w : World) (repo : Repository) :
    (handleRepo w repo).1.orgs = w.orgs ∧ (handleRepo w repo).1.calls = w.calls := by
  unfold handleRepo
  repeat' split
  all_goals simp [World.logAt]

/-- The function `handleRepo` never returns a non-nil error: it returns nil or panics. -/
theorem handleRepo_outcome (w : World) (repo : Repository) :
    (handleRepo w repo).2 = .returned none ∨ (handleRepo w repo).2 = .panicked := by
  unfold handleRepo
  repeat' split
  all_goals simp

/-- The batch loop writes neither `orgs` nor the list of API calls. -/
theorem loop_frame (batch : List Repository) (w : World) :
    (handleRepositories.loop w batch).1.orgs = w.orgs ∧
      (handleRepositories.loop w batch).1.calls = w.calls := by
  induction batch generalizing w with
  | nil => simp [handleRepositories.loop]
  | cons repo rest ih =>
    simp only [handleRepositories.loop]
    split
    · simp
    · rename_i f hf
      have hfr := handleRepo_frame (w.logAt .Debug [] ("Handling repo " ++ f ++ "...")) repo
      split <;> rename_i heq <;> rw [heq] at hfr <;> simp only [World.logAt] at hfr
      · rw [(ih _).1, (ih _).2]; exact hfr
      · rw [(ih _).1, (ih _).2]; simpa [World.logAt] using hfr
      · exact hfr
      · exact hfr
      · exact hfr

/-- Pagination never writes `orgs`. -/
theorem handleRepositories_orgs (client : Client) (perPage : Int) (fuel : Nat) :
    ∀ (w : World) (page : Int),
      (handleRepositories client fuel w page perPage).1.orgs = w.orgs := by
  induction fuel with
  | zero => intro w page; simp [handleRepositories]
  | succ fuel ih =>
    intro w page
    simp only [handleRepositories]
    split
    · simp [World.call]
    · rename_i repos resp hok
      have hfr := loop_frame repos (w.call (.RepositoriesList (listOptions page perPage)))
      split <;> rename_i heq <;> rw [heq] at hfr <;> simp only [World.call] at hfr
      · split
        · exact hfr.1
        · rw [ih]; exact hfr.1
      · exact hfr.1
      · exact hfr.1
      · exact hfr.1

/-- Pagination only appends list-repositories calls, at most one per unit of fuel, the
first of them for the page it was started on. -/
theorem handleRepositories_calls (client : Client) (perPage : Int) (fuel : Nat) :
    ∀ (w : World) (page : Int), ∃ pages : List Int,
      (handleRepositories client fuel w page perPage).1.calls = w.calls ++ requested perPage pages ∧
      pages.length ≤ fuel ∧ (0 < fuel → pages.head? = some page) := by
  induction fuel with
  | zero => intro w page; exact ⟨[], by simp [handleRepositories, requested, listOptions]⟩
  | succ fuel ih =>
    intro w page
    simp only [handleRepositories]
    split
    · exact ⟨[page], by simp [World.call, requested, listOptions]⟩
    · rename_i repos resp hok
      have hfr := loop_frame repos (w.call (.RepositoriesList (listOptions page perPage)))
      split <;> rename_i heq <;> rw [heq] at hfr <;> simp only [World.call] at hfr
      · split
        · exact ⟨[page], by simp [requested, listOptions, hfr.2]⟩
        · obtain ⟨pages, hc, hl, _⟩ := ih _ resp.NextPage
          refine ⟨page :: pages, ?_, by simp [hl], by simp⟩
          rw [hc, hfr.2]; simp [requested, listOptions]
      · exact ⟨[page], by simp [requested, listOptions, hfr.2]⟩
      · exact ⟨[page], by simp [requested, listOptions, hfr.2]⟩
      · exact ⟨[page], by simp [requested, listOptions, hfr.2]⟩

/-- A run that ends within some fuel is the same run with any larger fuel. -/
theorem handleRepositories_mono (client : Client) (perPage : Int) (n : Nat) :
    ∀ (w : World) (page : Int) (m : Nat),
      (handleRepositories client n w page perPage).2 ≠ .outOfFuel → n ≤ m →
      handleRepositories client m w page perPage = handleRepositories client n w page perPage := by
  induction n with
  | zero => intro w page m h; simp [handleRepositories] at h
  | succ n ih =>
    intro w page m h hle
    obtain ⟨m, rfl⟩ : ∃ k, m = k + 1 := ⟨m - 1, by omega⟩
    simp only [handleRepositories] at h ⊢
    split
    · rfl
    · rename_i repos resp hok
      rw [hok] at h
      simp only at h
      split <;> rename_i heq <;> rw [heq] at h
      simp only at h
      split
      · rfl
      · rename_i hstop
        rw [if_neg hstop] at h
        exact ih _ _ m h (by omega)

/-- Folding `Set` over the flag values accumulates them in order. -/
theorem foldl_Set (l acc : List String) :
    l.foldl (fun s value => (stringSlice.Set s value).1) acc = acc ++ l := by
  induction l generalizing acc with
  | nil => simp
  | cons a l ih => simp only [List.foldl_cons]; rw [ih]; simp [stringSlice.Set]

/-- After `main`, however it ends, `orgs` is its initial value followed by the login. -/
theorem main_orgs (client : Client) (fuel : Nat) (w : World) (login : String)
    (hget : client.UsersGet w.calls = .ok ⟨some login⟩) :
    (main client fuel w).1.orgs = w.orgs ++ [login] := by
  have horgs := handleRepositories_orgs client 100 fuel
    (({ w.call .UsersGet with orgs := w.orgs ++ [login] }).logAt .Debug []
      "Getting repositories...") 1
  simp only [main, hget]
  split <;> rename_i heq <;> rw [heq] at horgs <;> simpa [World.logAt, World.call] using horgs

/-- Processing a batch of complete records after a fetch returns normally and leaves the
fetch as the last call. -/
theorem page_loop (w : World) (page perPage : Int) (repos : List Repository)
    (hwf : ∀ r ∈ repos, r.allPresent = true) :
    ∃ w1 : World,
      handleRepositories.loop (w.call (.RepositoriesList (listOptions page perPage))) repos
        = (w1, .returned ()) ∧
      w1.calls = w.calls ++ [.RepositoriesList (listOptions page perPage)] :=
  ⟨_, loop_of_present repos hwf _, by simp [World.call]⟩

/-- Against the constant answer NextPage 2, LastPage 0 a run from page 2 uses up any fuel. -/
theorem constant_run (login : String) (fuel : Nat) :
    ∀ w : World, handleRepositories (constantClient login ([], ⟨2, 0⟩)) fuel w 2 100
      = ({ w with calls := w.calls ++ requested 100 (List.replicate fuel 2) }, .outOfFuel) := by
  induction fuel with
  | zero => intro w; simp [handleRepositories, requested, listOptions]
  | succ fuel ih =>
    intro w
    have hstep : handleRepositories (constantClient login ([], ⟨2, 0⟩)) (fuel + 1) w 2 100
        = handleRepositories (constantClient login ([], ⟨2, 0⟩)) fuel
            (w.call (.RepositoriesList (listOptions 2 100))) 2 100 := rfl
    rw [hstep, ih]
    simp [World.call, requested, listOptions, List.replicate_succ]

/-- Runs against an API whose answers stop or advance, by induction on the distance from
the page to the bound. -/
theorem advancing_run (client : Client) (perPage bound : Int)
    (hadv : ∀ (hist : List Call) (page : Int), ∃ repos resp,
      client.RepositoriesList hist (listOptions page perPage) = .ok (repos, resp) ∧
      (∀ r ∈ repos, r.allPresent = true) ∧ resp.NextPage ≤ bound ∧
      (page = resp.LastPage ∨ resp.NextPage = 0 ∨ page < resp.NextPage)) (d : Nat) :
    ∀ (w : World) (page : Int), (bound - page).toNat ≤ d →
      ∃ (pages : List Int) (w1 : World),
        (∀ fuel, d + 1 ≤ fuel →
          handleRepositories client fuel w page perPage = (w1, .returned none)) ∧
        w1.calls = w.calls ++ requested perPage (page :: pages) ∧
        List.Chain (· < ·) page pages := by
  induction d with
  | zero =>
    intro w page hd
    obtain ⟨repos, resp, hok, hwf, hb, hcase⟩ := hadv w.calls page
    have hstop : page = resp.LastPage ∨ resp.NextPage = 0 := by
      rcases hcase with h | h | h
      · exact Or.inl h
      · exact Or.inr h
      · omega
    obtain ⟨w1, hloop, hcalls⟩ := page_loop w page perPage repos hwf
    refine ⟨[], w1, ?_, by simp [hcalls, requested, listOptions], List.Chain.nil⟩
    intro fuel hf
    obtain ⟨f, rfl⟩ : ∃ f, fuel = f + 1 := ⟨fuel - 1, by omega⟩
    simp only [handleRepositories, hok, hloop, if_pos hstop]
  | succ d ih =>
    intro w page hd
    obtain ⟨repos, resp, hok, hwf, hb, hcase⟩ := hadv w.calls page
    obtain ⟨w1, hloop, hcalls⟩ := page_loop w page perPage repos hwf
    by_cases hstop : page = resp.LastPage ∨ resp.NextPage = 0
    · refine ⟨[], w1, ?_, by simp [hcalls, requested, listOptions], List.Chain.nil⟩
      intro fuel hf
      obtain ⟨f, rfl⟩ : ∃ f, fuel = f + 1 := ⟨fuel - 1, by omega⟩
      simp only [handleRepositories, hok, hloop, if_pos hstop]
    · have hlt : page < resp.NextPage := by
        rcases hcase with h | h | h
        · exact absurd (Or.inl h) hstop
        · exact absurd (Or.inr h) hstop
        · exact h
      obtain ⟨pages, w2, hrun, hc2, hchain⟩ := ih w1 resp.NextPage (by omega)
      refine ⟨resp.NextPage :: pages, w2, ?_, ?_, List.Chain.cons hlt hchain⟩
      · intro fuel hf
        obtain ⟨f, rfl⟩ : ∃ f, fuel = f + 1 := ⟨fuel - 1, by omega⟩
        simp only [handleRepositories, hok, hloop, if_neg hstop]
        exact hrun f (by omega)
      · rw [hc2, hcalls]; simp [requested, listOptions]

/-- The request record `handleRepositories` builds for a page. -/
theorem listOptions_eq (page perPage : Int) :
    listOptions page perPage = ⟨"owner,collaborator,organization_member", page, perPage⟩ :=
  rfl

/-- A listing whose first answer meets the stop test is asked for its start page only. -/
theorem fetchedPages_stop (p : Int) (r : List Repository × Response)
    (rest : List (List Repository × Response)) (h : stopsAt p r.2 = true) :
    fetchedPages p (r :: rest) = [p] := by
  simp [fetchedPages, List.findIdx_cons, h]

/-- A listing whose first answer does not meet the stop test goes on with the page named. -/
theorem fetchedPages_go (p : Int) (r : List Repository × Response)
    (rest : List (List Repository × Response)) (h : stopsAt p r.2 = false) :
    fetchedPages p (r :: rest) = p :: fetchedPages r.2.NextPage rest := by
  simp [fetchedPages, List.findIdx_cons, h]

/-- When only the last answer meets the stop test, every page of the listing is asked for. -/
theorem fetchedPages_all (fin : List Repository × Response)
    (script : List (List Repository × Response)) :
    ∀ p : Int,
      (∀ pr ∈ (p :: script.map (fun r => r.2.NextPage)).zip script,
        stopsAt pr.1 pr.2.2 = false) →
      stopsAt ((script.map (fun r => r.2.NextPage)).getLastD p) fin.2 = true →
      fetchedPages p (script ++ [fin]) = p :: script.map (fun r => r.2.NextPage) := by
  induction script with
  | nil =>
    intro p _ hfin
    exact fetchedPages_stop p fin [] (by simpa using hfin)
  | cons r rest ih =>
    intro p hgo hfin
    have hr : stopsAt p r.2 = false := hgo (p, r) (by simp)
    have hrest : ∀ pr ∈ (r.2.NextPage :: rest.map (fun r => r.2.NextPage)).zip rest,
        stopsAt pr.1 pr.2.2 = false := fun pr hpr => hgo pr (by
      simp only [List.map_cons, List.zip_cons_cons, List.mem_cons]
      exact Or.inr hpr)
    simp only [List.map_cons, List.getLastD_cons] at hfin
    rw [List.cons_append, fetchedPages_go p r _ hr, ih r.2.NextPage hrest hfin, List.map_cons]

/-- Runs against a scripted API, by induction on the script. -/
theorem scripted_run (client : Client) (perPage : Int) (fin : List Repository × Response)
    (script : List (List Repository × Response)) :
    ∀ (w : World) (p : Int),
      Serves client perPage w.calls p (script ++ [fin]) →
      List.Chain (· < ·) p (script.map (fun r => r.2.NextPage)) →
      (fin.2.NextPage = 0 ∨ (script.map (fun r => r.2.NextPage)).getLastD p = fin.2.LastPage) →
      (∀ r ∈ script ++ [fin], ∀ repo ∈ r.1, repo.allPresent = true) →
      ∃ (pages : List Int) (w1 : World),
        (∀ fuel, script.length + 1 ≤ fuel →
          handleRepositories client fuel w p perPage = (w1, .returned none)) ∧
        w1.calls = w.calls ++ requested perPage (p :: pages) ∧
        pages <+: script.map (fun r => r.2.NextPage) ∧
        p :: pages = fetchedPages p (script ++ [fin]) := by
  induction script with
  | nil =>
    intro w p hs _ hend hwf
    obtain ⟨repos, resp⟩ := fin
    simp only [List.nil_append, Serves, and_true] at hs
    have hok : client.RepositoriesList w.calls (listOptions p perPage) = .ok (repos, resp) := hs
    obtain ⟨w1, hloop, hcalls⟩ := page_loop w p perPage repos (hwf (repos, resp) (by simp))
    have hstop : p = resp.LastPage ∨ resp.NextPage = 0 := by
      rcases hend with h | h
      · exact Or.inr h
      · exact Or.inl (by simpa using h)
    refine ⟨[], w1, ?_, by simp [hcalls, requested, listOptions], by simp, ?_⟩
    · intro fuel hf
      obtain ⟨f, rfl⟩ : ∃ f, fuel = f + 1 := ⟨fuel - 1, by omega⟩
      simp only [handleRepositories, hok, hloop, if_pos hstop]
    · exact (fetchedPages_stop p (repos, resp) [] (by simp [stopsAt, hstop])).symm
  | cons r rest ih =>
    intro w p hs hinc hend hwf
    obtain ⟨repos, resp⟩ := r
    simp only [List.cons_append, Serves] at hs
    obtain ⟨hs1, hrest⟩ := hs
    have hok : client.RepositoriesList w.calls (listOptions p perPage) = .ok (repos, resp) := hs1
    simp only [List.map_cons, List.chain_cons] at hinc
    obtain ⟨hlt, hchain⟩ := hinc
    obtain ⟨w1, hloop, hcalls⟩ := page_loop w p perPage repos (hwf (repos, resp) (by simp))
    by_cases hstop : p = resp.LastPage ∨ resp.NextPage = 0
    · refine ⟨[], w1, ?_, by simp [hcalls, requested, listOptions], by simp, ?_⟩
      · intro fuel hf
        obtain ⟨f, rfl⟩ : ∃ f, fuel = f + 1 := ⟨fuel - 1, by omega⟩
        simp only [handleRepositories, hok, hloop, if_pos hstop]
      · rw [List.cons_append]
        exact (fetchedPages_stop p (repos, resp) _ (by simp [stopsAt, hstop])).symm
    · have hrest1 : Serves client perPage w1.calls resp.NextPage (rest ++ [fin]) := by
        rw [hcalls]; exact hrest
      obtain ⟨pages, w2, hrun, hc2, hpre, hpages⟩ := ih w1 resp.NextPage hrest1 hchain
        (by simp only [List.map_cons, List.getLastD_cons] at hend; exact hend)
        (fun r hr => hwf r (by simp at hr ⊢; tauto))
      refine ⟨resp.NextPage :: pages, w2, ?_, ?_, ?_, ?_⟩
      · intro fuel hf
        obtain ⟨f, rfl⟩ : ∃ f, fuel = f + 1 := ⟨fuel - 1, by simp at hf; omega⟩
        simp only [handleRepositories, hok, hloop, if_neg hstop]
        exact hrun f (by simp at hf; omega)
      · rw [hc2, hcalls]; simp [requested, listOptions]
      · simpa [List.map_cons, List.cons_prefix_cons] using hpre
      · rw [List.cons_append, fetchedPages_go p (repos, resp) _ (by simp [stopsAt, hstop]),
          hpages]

/-- When the last of the requests a run makes fails, the run without the fuel for that
request stops right before it, and the run with it returns the error of that request. -/
theorem failing_call_run (client : Client) (perPage k : Int) (e : Error) (ps : List Int) :
    ∀ (w : World) (page : Int),
      (handleRepositories client (ps.length + 1) w page perPage).1.calls
        = w.calls ++ requested perPage (ps ++ [k]) →
      client.RepositoriesList (w.calls ++ requested perPage ps)
        ⟨"owner,collaborator,organization_member", k, perPage⟩ = .error e →
      ∃ wk : World,
        handleRepositories client ps.length w page perPage = (wk, .outOfFuel) ∧
        wk.calls = w.calls ++ requested perPage ps ∧
        handleRepositories client (ps.length + 1) w page perPage
          = (wk.call (.RepositoriesList ⟨"owner,collaborator,organization_member", k, perPage⟩),
              .returned (some e)) := by
  induction ps with
  | nil =>
    intro w page hmade hfail
    obtain ⟨pages, hc, hl, hhead⟩ := handleRepositories_calls client perPage 1 w page
    have hk : page = k := by
      rw [List.length_nil, Nat.zero_add, hc] at hmade
      have hreq := List.append_cancel_left hmade
      cases pages with
      | nil => simp at hhead
      | cons q tl =>
        have hq : q = page := by simpa using hhead (by decide)
        simp [requested] at hreq
        rw [← hq]; exact hreq.1
    subst hk
    refine ⟨w, rfl, by simp [requested], ?_⟩
    simp only [requested, List.map_nil, List.append_nil] at hfail
    have hans : client.RepositoriesList w.calls (listOptions page perPage) = .error e := hfail
    simp only [List.length_nil, Nat.zero_add, handleRepositories, hans]
    rfl
  | cons p ps ih =>
    intro w page hmade hfail
    simp only [List.length_cons] at hmade ⊢
    cases hans : client.RepositoriesList w.calls (listOptions page perPage) with
    | error err =>
      have hrun : handleRepositories client (ps.length + 1 + 1) w page perPage
          = (w.call (.RepositoriesList (listOptions page perPage)), .returned (some err)) := by
        simp only [handleRepositories, hans]
      rw [hrun] at hmade
      have hlen := congrArg List.length hmade
      simp [World.call, requested] at hlen
    | ok val =>
      obtain ⟨repos, resp⟩ := val
      have hfr := loop_frame repos (w.call (.RepositoriesList (listOptions page perPage)))
      cases hl : handleRepositories.loop
          (w.call (.RepositoriesList (listOptions page perPage))) repos with
      | mk w1 o =>
        rw [hl] at hfr
        have hw1 : w1.calls = w.calls ++ [.RepositoriesList (listOptions page perPage)] := by
          simpa [World.call] using hfr.2
        have hshort : ∀ out : Outcome (Option Error),
            handleRepositories client (ps.length + 1 + 1) w page perPage = (w1, out) →
            False := by
          intro out hrun
          rw [hrun] at hmade
          have hlen := congrArg List.length hmade
          simp [hw1, requested] at hlen
        cases o with
        | panicked =>
          exact (hshort .panicked (by simp only [handleRepositories, hans, hl])).elim
        | exited code =>
          exact (hshort (.exited code) (by simp only [handleRepositories, hans, hl])).elim
        | outOfFuel =>
          exact (hshort .outOfFuel (by simp only [handleRepositories, hans, hl])).elim
        | returned u =>
          by_cases hstop : page = resp.LastPage ∨ resp.NextPage = 0
          · exact (hshort (.returned none)
              (by simp only [handleRepositories, hans, hl, if_pos hstop])).elim
          · have hstep : ∀ f, handleRepositories client (f + 1) w page perPage
                = handleRepositories client f w1 resp.NextPage perPage := fun f => by
              simp only [handleRepositories, hans, hl, if_neg hstop]
            rw [hstep] at hmade
            obtain ⟨pages, hc, _, hhead⟩ :=
              handleRepositories_calls client perPage (ps.length + 1) w1 resp.NextPage
            have hreq : Call.RepositoriesList (listOptions page perPage) :: requested perPage pages
                = requested perPage (p :: (ps ++ [k])) := by
              rw [hc, hw1, List.append_assoc] at hmade
              exact List.append_cancel_left hmade
            have hp : page = p := by
              simp [requested, listOptions] at hreq
              exact hreq.1
            have hpages : requested perPage pages = requested perPage (ps ++ [k]) := by
              simp only [requested, List.map_cons, List.cons.injEq] at hreq
              exact hreq.2
            obtain ⟨wk, h0, hcalls, h1⟩ := ih w1 resp.NextPage (by rw [hc, hpages])
              (by
                rw [hw1, List.append_assoc, hp]
                simpa [requested, listOptions] using hfail)
            refine ⟨wk, by rw [hstep]; exact h0, ?_, by rw [hstep]; exact h1⟩
            rw [hcalls, hw1, hp]
            simp [requested, listOptions]

/-- The calls made by `main` are get-current-user followed by those of the pagination. -/
theorem main_run (client : Client) (fuel : Nat) (w : World) (username : String)
    (hget : client.UsersGet w.calls = .ok ⟨some username⟩) :
    (main client fuel w).1.calls
        = (handleRepositories client fuel
            (({ w.call .UsersGet with orgs := w.orgs ++ [username] }).logAt .Debug []
              "Getting repositories...") 1 100).1.calls ∧
      ∀ wk, handleRepositories client fuel
            (({ w.call .UsersGet with orgs := w.orgs ++ [username] }).logAt .Debug []
              "Getting repositories...") 1 100 = (wk, .outOfFuel) →
        main client fuel w = (wk, .outOfFuel) := by
  cases h : handleRepositories client fuel
      (({ w.call .UsersGet with orgs := w.orgs ++ [username] }).logAt .Debug []
        "Getting repositories...") 1 100 with
  | mk w1 o =>
    have h2 := h
    simp only [World.logAt, World.call] at h2
    constructor
    · cases o with
      | returned a => cases a <;> simp only [main, hget, World.logAt, World.call, h2]
      | panicked => simp only [main, hget, World.logAt, World.call, h2]
      | exited code => simp only [main, hget, World.logAt, World.call, h2]
      | outOfFuel => simp only [main, hget, World.logAt, World.call, h2]
    · intro wk hrun
      obtain ⟨rfl, rfl⟩ := Prod.mk.inj hrun
      simp only [main, hget, World.logAt, World.call, h2]


/-! ## The organization filter -/

/-- Claim C1: for a repository whose owner login is `L`, `shouldHandleRepo` returns true
exactly when `L` is an element of the organization list (string equality, nothing looser),
false exactly when it is not; and on the empty list it returns false for every repository. -/
theorem shouldHandleRepo_iff_mem (O : stringSlice) (repo : Repository) (L : String)
    (h : repo.ownerLogin = some L) :
    (shouldHandleRepo O repo = some true ↔ L ∈ O) ∧
      (shouldHandleRepo O repo = some false ↔ L ∉ O) ∧
      (∀ r : Repository, shouldHandleRepo [] r = some false) := by
  unfold shouldHandleRepo
  rw [shouldHandleRepo_loop_of_login repo L h]
  refine ⟨by simp, by simp, fun r => by simp [shouldHandleRepo.loop]⟩

/-- Witness of claim C1 on the scenario: alice/r1 against the set `["alice"]`. -/
theorem shouldHandleRepo_iff_mem_witness :
    repoR1.ownerLogin = some "alice" ∧
      ((shouldHandleRepo ["alice"] repoR1 = some true ↔ "alice" ∈ ["alice"]) ∧
        (shouldHandleRepo ["alice"] repoR1 = some false ↔ "alice" ∉ ["alice"]) ∧
        (∀ r : Repository, shouldHandleRepo [] r = some false)) :=
  ⟨by decide, shouldHandleRepo_iff_mem ["alice"] repoR1 "alice" (by decide)⟩

/-! ## The reporter -/

/-- Claim C2, with the message as the code spells it: for a repository that passes the
filter (name and open-issues count present), `handleRepo` hands exactly one record to the
logger and returns nil; the record carries the owner login and the name; with count 0 it is
a debug-level record with message "No open issues" (so no info-level record); with a count
greater than 0 it is an info-level record whose message ends in the decimal count. -/
theorem handleRepo_one_record (w : World) (repo : Repository) (owner name : String) (n : Int)
    (hO : repo.ownerLogin = some owner) (hN : repo.Name = some name)
    (hC : repo.OpenIssuesCount = some n) (hpass : shouldHandleRepo w.orgs repo = some true) :
    ∃ e : Entry, handleRepo w repo = ({ w with log := w.log ++ [e] }, .returned none) ∧
      e.fields = [("owner", owner), ("name", name)] ∧
      (n = 0 → e.level = .Debug ∧ e.msg = "No open issues") ∧
      (0 < n → e.level = .Info ∧ e.msg = "Open Issues Count: " ++ formatInt n ∧
        (formatInt n).data <:+: e.msg.data) := by
  have hmem : owner ∈ w.orgs := by
    unfold shouldHandleRepo at hpass
    rw [shouldHandleRepo_loop_of_login repo owner hO] at hpass
    simpa using hpass
  rw [handleRepo_of_present w repo owner name n hO hN hC]
  by_cases hn : n = 0
  · subst hn
    exact ⟨⟨.Debug, [("owner", owner), ("name", name)], "No open issues"⟩, by simp [hmem], rfl,
      fun _ => ⟨rfl, rfl⟩, fun h => absurd h (by decide)⟩
  · refine ⟨⟨.Info, [("owner", owner), ("name", name)], "Open Issues Count: " ++ formatInt n⟩,
      by simp [hmem, hn], rfl, fun h => absurd h hn, fun _ => ⟨rfl, rfl, ?_⟩⟩
    rw [String.data_append]
    exact (List.suffix_append _ _).isInfix

/-- Witness of claim C2 as amended: alice/r1 with 3 open issues in the scenario world. -/
theorem handleRepo_one_record_witness :
    ∃ e : Entry, handleRepo scenarioWorld repoR1
        = ({ scenarioWorld with log := scenarioWorld.log ++ [e] }, .returned none) ∧
      e.fields = [("owner", "alice"), ("name", "r1")] ∧
      ((3 : Int) = 0 → e.level = .Debug ∧ e.msg = "No open issues") ∧
      ((0 : Int) < 3 → e.level = .Info ∧ e.msg = "Open Issues Count: " ++ formatInt 3 ∧
        (formatInt 3).data <:+: e.msg.data) :=
  handleRepo_one_record scenarioWorld repoR1 "alice" "r1" 3 (by decide) (by decide) (by decide)
    (by decide)

/-- Counterexample to claim C2 as stated: for alice/idle (count 0, owner in the set) the one
record emitted has message "No open issues", not "no open issues". -/
theorem handleRepo_message_case :
    shouldHandleRepo scenarioWorld.orgs repoIdle = some true ∧
      repoIdle.OpenIssuesCount = some 0 ∧
      (handleRepo scenarioWorld repoIdle).1.log
        = [⟨.Debug, [("owner", "alice"), ("name", "idle")], "No open issues"⟩] ∧
      ¬ ∃ e ∈ (handleRepo scenarioWorld repoIdle).1.log, e.msg = "no open issues" := by
  decide

/-- Claim C5, with the loop's own debug line accounted for: processing a batch of complete
repository records returns normally and appends, in batch order, for every repository the
debug line "Handling repo <full name>..." followed, when the owner login is in the set, by
its report record; the info-level records among them are exactly, in batch order, one per
repository whose owner is in the set and whose count is non-zero, carrying owner, name and
count; a repository whose owner is not in the set gets the debug line and nothing else. -/
theorem loop_records (w : World) (batch : List Repository)
    (hwf : ∀ r ∈ batch, r.allPresent = true) :
    ∃ emitted : List Entry,
      handleRepositories.loop w batch = ({ w with log := w.log ++ emitted }, .returned ()) ∧
      emitted = batch.flatMap (recordsOf w.orgs) ∧
      emitted.filter (fun e => e.level = .Info) = batch.filterMap (infoRecord w.orgs) ∧
      (∀ r ∈ batch, ∀ owner, r.ownerLogin = some owner → owner ∉ w.orgs →
        infoRecord w.orgs r = none ∧
        ∃ fullName, r.FullName = some fullName ∧
          recordsOf w.orgs r = [⟨.Debug, [], "Handling repo " ++ fullName ++ "..."⟩]) := by
  refine ⟨_, loop_of_present batch hwf w, rfl, flatMap_recordsOf_info w.orgs batch hwf, ?_⟩
  intro r hr owner ho hnot
  obtain ⟨f, o, nm, c, hf, ho', hnm, hc⟩ := allPresent_fields r (hwf r hr)
  have : o = owner := by rw [ho] at ho'; exact (Option.some.inj ho').symm
  subst this
  exact ⟨by simp [infoRecord, ho, hnm, hc, hnot], f, hf,
    by simp [recordsOf, hf, ho, hnm, hc, hnot]⟩

/-- Witness of claim C5 as amended, on the scenario of the spec: set `["alice"]`, batch
alice/r1 (3 open issues), bob/r2 (5). -/
theorem loop_records_witness :
    (∀ r ∈ [repoR1, repoR2], r.allPresent = true) ∧
    ∃ emitted : List Entry,
      handleRepositories.loop scenarioWorld [repoR1, repoR2]
        = ({ scenarioWorld with log := scenarioWorld.log ++ emitted }, .returned ()) ∧
      emitted = [repoR1, repoR2].flatMap (recordsOf scenarioWorld.orgs) ∧
      emitted.filter (fun e => e.level = .Info)
        = [repoR1, repoR2].filterMap (infoRecord scenarioWorld.orgs) ∧
      (∀ r ∈ [repoR1, repoR2], ∀ owner, r.ownerLogin = some owner →
        owner ∉ scenarioWorld.orgs →
        infoRecord scenarioWorld.orgs r = none ∧
        ∃ fullName, r.FullName = some fullName ∧
          recordsOf scenarioWorld.orgs r
            = [⟨.Debug, [], "Handling repo " ++ fullName ++ "..."⟩]) :=
  ⟨by decide, loop_records scenarioWorld [repoR1, repoR2] (by decide)⟩

/-- Counterexample to claim C5 as stated: in the scenario of the spec the batch yields one
info record (r1, count 3), and bob/r2, whose owner is not in the set, still gets a record:
the debug line of the loop. -/
theorem loop_scenario_records :
    repoR2.ownerLogin = some "bob" ∧ "bob" ∉ scenarioWorld.orgs ∧
      (handleRepositories.loop scenarioWorld [repoR1, repoR2]).1.log
        = [⟨.Debug, [], "Handling repo alice/r1..."⟩,
           ⟨.Info, [("owner", "alice"), ("name", "r1")], "Open Issues Count: 3"⟩,
           ⟨.Debug, [], "Handling repo bob/r2..."⟩] ∧
      (handleRepositories.loop scenarioWorld [repoR2]).1.log
        = [⟨.Debug, [], "Handling repo bob/r2..."⟩] := by
  decide

/-! ## Pagination -/

/-- One page of complete records: after a successful answer to the request for `page`
(the empty batch included), when `page` equals the answer's LastPage or its NextPage is 0
the function returns nil having made that one call and no other; otherwise it goes on
exactly as a call for page NextPage with the same perPage, and that request, for the same
affiliations, page NextPage and the same perPage, is the next one made. -/
theorem handleRepositories_page_step (client : Client) (fuel : Nat) (w : World)
    (page perPage : Int) (repos : List Repository) (resp : Response)
    (hok : client.RepositoriesList w.calls
      ⟨"owner,collaborator,organization_member", page, perPage⟩ = .ok (repos, resp))
    (hwf : ∀ r ∈ repos, r.allPresent = true) :
    ∃ w1 : World,
      w1.calls = w.calls ++
        [.RepositoriesList ⟨"owner,collaborator,organization_member", page, perPage⟩] ∧
      w1.log = w.log ++ repos.flatMap (recordsOf w.orgs) ∧
      (page = resp.LastPage ∨ resp.NextPage = 0 →
        handleRepositories client (fuel + 1) w page perPage = (w1, .returned none)) ∧
      (¬ (page = resp.LastPage ∨ resp.NextPage = 0) →
        handleRepositories client (fuel + 1) w page perPage
          = handleRepositories client fuel w1 resp.NextPage perPage ∧
        ∃ rest : List Int, (handleRepositories client (fuel + 2) w page perPage).1.calls
          = w.calls ++
            [.RepositoriesList ⟨"owner,collaborator,organization_member", page, perPage⟩,
             .RepositoriesList
               ⟨"owner,collaborator,organization_member", resp.NextPage, perPage⟩]
            ++ requested perPage rest) := by
  have hok1 : client.RepositoriesList w.calls (listOptions page perPage) = .ok (repos, resp) :=
    hok
  obtain ⟨w1, hloop, hcalls, hlog⟩ : ∃ w1 : World,
      handleRepositories.loop (w.call (.RepositoriesList (listOptions page perPage))) repos
        = (w1, .returned ()) ∧
      w1.calls = w.calls ++
        [.RepositoriesList ⟨"owner,collaborator,organization_member", page, perPage⟩] ∧
      w1.log = w.log ++ repos.flatMap (recordsOf w.orgs) :=
    ⟨_, loop_of_present repos hwf _, by simp [World.call, listOptions], by simp [World.call]⟩
  refine ⟨w1, hcalls, hlog, ?_, ?_⟩
  · intro hstop
    simp only [handleRepositories, hok1, hloop, if_pos hstop]
  · intro hstop
    have hstep : ∀ f, handleRepositories client (f + 1) w page perPage
        = handleRepositories client f w1 resp.NextPage perPage := fun f => by
      simp only [handleRepositories, hok1, hloop, if_neg hstop]
    refine ⟨hstep fuel, ?_⟩
    rw [hstep (fuel + 1)]
    obtain ⟨pages, hc, _, hhead⟩ :=
      handleRepositories_calls client perPage (fuel + 1) w1 resp.NextPage
    cases pages with
    | nil => simp at hhead
    | cons p rest =>
      simp at hhead
      subst hhead
      exact ⟨rest, by rw [hc, hcalls]; simp [requested]⟩

/-- Claim C3 at a failing input: a successful answer whose batch holds a record with a
missing owner. With NextPage 0 the claim has the call return nil, with NextPage 2 it has
page 2 requested next; in both cases the run panics in the batch after the one fetch, so it
neither returns nil nor requests page 2. The same answers with a complete record behave as
the claim says: nil after one fetch, and page 2 requested after page 1. -/
theorem bad_record_stops_pagination :
    handleRepositories (constantClient "alice" ([repoNoOwner], ⟨0, 1⟩)) 5 scenarioWorld 1 100
      = ({ scenarioWorld with
            calls := [.RepositoriesList ⟨"owner,collaborator,organization_member", 1, 100⟩]
            log := [⟨.Debug, [], "Handling repo alice/r0..."⟩] }, .panicked) ∧
    handleRepositories (scriptedClient "alice" [([repoNoOwner], ⟨2, 2⟩), ([repoR2], ⟨0, 2⟩)]) 5
        scenarioWorld 1 100
      = ({ scenarioWorld with
            calls := [.RepositoriesList ⟨"owner,collaborator,organization_member", 1, 100⟩]
            log := [⟨.Debug, [], "Handling repo alice/r0..."⟩] }, .panicked) ∧
    handleRepositories (constantClient "alice" ([repoR1], ⟨0, 1⟩)) 5 scenarioWorld 1 100
      = ({ scenarioWorld with
            calls := [.RepositoriesList ⟨"owner,collaborator,organization_member", 1, 100⟩]
            log := [⟨.Debug, [], "Handling repo alice/r1..."⟩,
                    ⟨.Info, [("owner", "alice"), ("name", "r1")], "Open Issues Count: 3"⟩] },
          .returned none) ∧
    (handleRepositories (scriptedClient "alice" soundScript) 5 scenarioWorld 1 100).1.calls
      = [.RepositoriesList ⟨"owner,collaborator,organization_member", 1, 100⟩,
         .RepositoriesList ⟨"owner,collaborator,organization_member", 2, 100⟩] := by
  decide

/-- Claim C4, with the first next-page value above the start page: when the successive
answers of the API are a script of successful answers (complete records) such that the start
page 1 followed by the next-page values of all answers but the last is strictly increasing,
and the last answer has NextPage 0 or a LastPage equal to the page then requested,
`handleRepositories` started at page 1 returns nil for every fuel above the script length.
The requests it makes are exactly, in order, one for each page of `fetchedPages`: page 1,
then the next page each answer names, up to and including the first answer that meets the
stop test; all pages of the listing when no answer before the last meets it. These pages
are strictly increasing, so without repetition, and each is fetched exactly once. -/
theorem scripted_pagination (client : Client) (perPage : Int) (w : World)
    (script : List (List Repository × Response)) (fin : List Repository × Response)
    (hserves : Serves client perPage w.calls 1 (script ++ [fin]))
    (hinc : (1 :: script.map (fun r => r.2.NextPage)).Sorted (· < ·))
    (hend : fin.2.NextPage = 0 ∨
      (script.map (fun r => r.2.NextPage)).getLastD 1 = fin.2.LastPage)
    (hwf : ∀ r ∈ script ++ [fin], ∀ repo ∈ r.1, repo.allPresent = true) :
    ∃ w1 : World,
      (∀ fuel, script.length + 1 ≤ fuel →
        handleRepositories client fuel w 1 perPage = (w1, .returned none)) ∧
      w1.calls = w.calls ++ requested perPage (fetchedPages 1 (script ++ [fin])) ∧
      (fetchedPages 1 (script ++ [fin])).head? = some 1 ∧
      fetchedPages 1 (script ++ [fin]) <+: 1 :: script.map (fun r => r.2.NextPage) ∧
      ((∀ pr ∈ (1 :: script.map (fun r => r.2.NextPage)).zip script,
          stopsAt pr.1 pr.2.2 = false) →
        fetchedPages 1 (script ++ [fin]) = 1 :: script.map (fun r => r.2.NextPage)) ∧
      (fetchedPages 1 (script ++ [fin])).Sorted (· < ·) ∧
      (fetchedPages 1 (script ++ [fin])).Nodup ∧
      ∀ p ∈ fetchedPages 1 (script ++ [fin]),
        (requested perPage (fetchedPages 1 (script ++ [fin]))).count
          (.RepositoriesList ⟨"owner,collaborator,organization_member", p, perPage⟩) = 1 := by
  obtain ⟨pages, w1, hrun, hcalls, hpre, hpages⟩ :=
    scripted_run client perPage fin script w 1 hserves (List.chain_iff_pairwise.mpr hinc) hend hwf
  rw [← hpages]
  have hpre1 : (1 :: pages) <+: 1 :: script.map (fun r => r.2.NextPage) := by
    simpa [List.cons_prefix_cons] using hpre
  have hsorted : (1 :: pages).Sorted (· < ·) := List.Pairwise.sublist hpre1.sublist hinc
  have hnodup : (1 :: pages).Nodup := List.Pairwise.imp (fun h => ne_of_lt h) hsorted
  refine ⟨w1, hrun, hcalls, rfl, hpre1, ?_, hsorted, hnodup, ?_⟩
  · intro hgo
    rw [hpages]
    refine fetchedPages_all fin script 1 hgo ?_
    unfold stopsAt
    rcases hend with h | h
    · exact decide_eq_true (Or.inr h)
    · exact decide_eq_true (Or.inl h)
  · intro p hp
    have hinj : Function.Injective (fun q : Int =>
        Call.RepositoriesList ⟨"owner,collaborator,organization_member", q, perPage⟩) := by
      intro a b hab
      simp only [Call.RepositoriesList.injEq, RepositoryListOptions.mk.injEq] at hab
      exact hab.2.1
    exact List.count_eq_one_of_mem (hnodup.map hinj) (List.mem_map_of_mem _ hp)

/-- Witness of claim C4 as amended: the two-page listing of `soundScript`, whose pages 1 and
2 are both requested. -/
theorem scripted_pagination_witness :
    fetchedPages 1 ([(([repoR1], ⟨2, 2⟩) : List Repository × Response)] ++ [([repoR2], ⟨0, 2⟩)])
      = [1, 2] ∧
    ∃ w1 : World,
      (∀ fuel, [(([repoR1], ⟨2, 2⟩) : List Repository × Response)].length + 1 ≤ fuel →
        handleRepositories (scriptedClient "alice" soundScript) fuel scenarioWorld 1 100
          = (w1, .returned none)) ∧
      w1.calls = scenarioWorld.calls ++ requested 100
        (fetchedPages 1 ([([repoR1], ⟨2, 2⟩)] ++ [([repoR2], ⟨0, 2⟩)])) ∧
      (fetchedPages 1 ([(([repoR1], ⟨2, 2⟩) : List Repository × Response)]
        ++ [([repoR2], ⟨0, 2⟩)])).head? = some 1 ∧
      fetchedPages 1 ([([repoR1], ⟨2, 2⟩)] ++ [([repoR2], ⟨0, 2⟩)])
        <+: 1 :: [(([repoR1], ⟨2, 2⟩) : List Repository × Response)].map
          (fun r => r.2.NextPage) ∧
      ((∀ pr ∈ (1 :: [(([repoR1], ⟨2, 2⟩) : List Repository × Response)].map
            (fun r => r.2.NextPage)).zip [([repoR1], ⟨2, 2⟩)],
          stopsAt pr.1 pr.2.2 = false) →
        fetchedPages 1 ([([repoR1], ⟨2, 2⟩)] ++ [([repoR2], ⟨0, 2⟩)])
          = 1 :: [(([repoR1], ⟨2, 2⟩) : List Repository × Response)].map
            (fun r => r.2.NextPage)) ∧
      (fetchedPages 1 ([(([repoR1], ⟨2, 2⟩) : List Repository × Response)]
        ++ [([repoR2], ⟨0, 2⟩)])).Sorted (· < ·) ∧
      (fetchedPages 1 ([(([repoR1], ⟨2, 2⟩) : List Repository × Response)]
        ++ [([repoR2], ⟨0, 2⟩)])).Nodup ∧
      ∀ p ∈ fetchedPages 1 ([(([repoR1], ⟨2, 2⟩) : List Repository × Response)]
          ++ [([repoR2], ⟨0, 2⟩)]),
        (requested 100 (fetchedPages 1 ([([repoR1], ⟨2, 2⟩)] ++ [([repoR2], ⟨0, 2⟩)]))).count
          (.RepositoriesList ⟨"owner,collaborator,organization_member", p, 100⟩) = 1 :=
  ⟨by decide,
    scripted_pagination (scriptedClient "alice" soundScript) 100 scenarioWorld
      [([repoR1], ⟨2, 2⟩)] ([repoR2], ⟨0, 2⟩) ⟨rfl, rfl, trivial⟩ (by decide)
      (Or.inl rfl) (by decide)⟩

/-- Counterexample to claim C4 as stated: the answers of the stuttering script carry the
strictly increasing next-page values 1, 2 and end in NextPage 0, yet the run, which ends
exactly when given fuel 3 or more, requests the pages 1, 1, 2: page 1 twice. -/
theorem stutter_requests_page_twice :
    Serves (scriptedClient "alice" (stutterScript ++ [stutterFinal])) 100 scenarioWorld.calls 1
        (stutterScript ++ [stutterFinal]) ∧
      (stutterScript.map (fun r => r.2.NextPage)).Sorted (· < ·) ∧
      stutterFinal.2.NextPage = 0 ∧
      (∀ fuel, 3 ≤ fuel →
        handleRepositories (scriptedClient "alice" (stutterScript ++ [stutterFinal])) fuel
            scenarioWorld 1 100
          = ({ scenarioWorld with calls := requested 100 [1, 1, 2] }, .returned none)) ∧
      (∀ fuel, fuel < 3 →
        (handleRepositories (scriptedClient "alice" (stutterScript ++ [stutterFinal])) fuel
            scenarioWorld 1 100).2 = .outOfFuel) ∧
      ¬ ([1, 1, 2] : List Int).Sorted (· < ·) ∧ ¬ ([1, 1, 2] : List Int).Nodup := by
  refine ⟨⟨rfl, rfl, rfl, trivial⟩, by decide, rfl, ?_, ?_, by decide, by decide⟩
  · intro fuel hfuel
    rw [handleRepositories_mono _ 100 3 scenarioWorld 1 fuel (by decide) hfuel]
    decide
  · intro fuel hfuel
    interval_cases fuel <;> decide

/-- Claim C10, under the assumption it needs: when every answer of the API is successful
(complete records), reports a NextPage at most `bound` (page numbers are machine integers)
and either meets the stop test or reports a NextPage above the page requested, pagination
from any page returns nil for every large enough fuel, each request is for a page strictly
greater than the one before, and no page is requested twice. -/
theorem advancing_pagination (client : Client) (perPage bound : Int) (w : World) (page : Int)
    (hadv : ∀ (hist : List Call) (p : Int), ∃ repos resp,
      client.RepositoriesList hist (listOptions p perPage) = .ok (repos, resp) ∧
      (∀ r ∈ repos, r.allPresent = true) ∧ resp.NextPage ≤ bound ∧
      (p = resp.LastPage ∨ resp.NextPage = 0 ∨ p < resp.NextPage)) :
    ∃ (pages : List Int) (w1 : World),
      (∀ fuel, (bound - page).toNat + 1 ≤ fuel →
        handleRepositories client fuel w page perPage = (w1, .returned none)) ∧
      w1.calls = w.calls ++ requested perPage pages ∧
      pages.head? = some page ∧ pages.Sorted (· < ·) ∧ pages.Nodup := by
  obtain ⟨pages, w1, hrun, hcalls, hchain⟩ :=
    advancing_run client perPage bound hadv (bound - page).toNat w page le_rfl
  have hsorted : (page :: pages).Sorted (· < ·) := List.chain_iff_pairwise.mp hchain
  exact ⟨page :: pages, w1, hrun, hcalls, rfl, hsorted,
    List.Pairwise.imp (fun h => ne_of_lt h) hsorted⟩

/-- Witness of claim C10 as amended: a three-page listing whose answer to page `p` names
`p + 1` as the next page while `p` is below 3. -/
theorem advancing_pagination_witness :
    ∃ (pages : List Int) (w1 : World),
      (∀ fuel, ((3 : Int) - 1).toNat + 1 ≤ fuel →
        handleRepositories (countingClient "alice" 3) fuel scenarioWorld 1 100
          = (w1, .returned none)) ∧
      w1.calls = scenarioWorld.calls ++ requested 100 pages ∧
      pages.head? = some 1 ∧ pages.Sorted (· < ·) ∧ pages.Nodup :=
  advancing_pagination (countingClient "alice" 3) 100 3 scenarioWorld 1
    (fun _ p => ⟨[], ⟨if p < 3 then p + 1 else 0, 3⟩, rfl, by simp, by
      show (if p < 3 then p + 1 else 0) ≤ 3
      split <;> omega, by
      show p = 3 ∨ (if p < 3 then p + 1 else 0) = 0 ∨ p < (if p < 3 then p + 1 else 0)
      split <;> omega⟩)

/-- Counterexample to claim C10 as stated: against an API whose every answer is successful
with NextPage 2 and LastPage 0, the run from page 1 never ends, whatever the fuel, and
requests page 2 again and again. -/
theorem constant_next_page_never_ends :
    (∀ fuel, (handleRepositories (constantClient "alice" ([], ⟨2, 0⟩)) fuel
        scenarioWorld 1 100).2 = .outOfFuel) ∧
      (∀ fuel, (handleRepositories (constantClient "alice" ([], ⟨2, 0⟩)) (fuel + 1)
        scenarioWorld 1 100).1.calls = requested 100 (1 :: List.replicate fuel 2)) ∧
      (handleRepositories (constantClient "alice" ([], ⟨2, 0⟩)) 3
        scenarioWorld 1 100).1.calls = requested 100 [1, 2, 2] := by
  have hstep : ∀ fuel, handleRepositories (constantClient "alice" ([], ⟨2, 0⟩)) (fuel + 1)
      scenarioWorld 1 100
      = handleRepositories (constantClient "alice" ([], ⟨2, 0⟩)) fuel
          (scenarioWorld.call (.RepositoriesList (listOptions 1 100))) 2 100 := fun _ => rfl
  refine ⟨?_, ?_, by decide⟩
  · intro fuel
    cases fuel with
    | zero => rfl
    | succ fuel => rw [hstep, constant_run]
  · intro fuel
    rw [hstep, constant_run]
    simp [World.call, requested, listOptions, scenarioWorld]

/-! ## Errors -/

/-- Claim C7: a failing request for page `k` makes `handleRepositories` return that very
error, with the call recorded and nothing else done. And when, in the run of `main`, the
list-repositories calls made are those for the pages `ps` and then the one for page `k`,
which fails with `e`: the pagination as a whole returns exactly `e` to `main`, whatever the
fuel beyond that call; compared with the state right before that call nothing is added but
the call itself (no repository of page `k` is handled, no further call is made); and `main`
ends the process with exit code 1 after one fatal record carrying `e`. -/
theorem fetch_error_is_fatal (client : Client) (w0 : World) (username : String)
    (ps : List Int) (k : Int) (e : Error)
    (hget : client.UsersGet w0.calls = .ok ⟨some username⟩)
    (hmade : (main client (ps.length + 1) w0).1.calls
      = w0.calls ++ [.UsersGet] ++ requested 100 (ps ++ [k]))
    (hfail : client.RepositoriesList (w0.calls ++ [.UsersGet] ++ requested 100 ps)
      ⟨"owner,collaborator,organization_member", k, 100⟩ = .error e) :
    (∀ (fuel : Nat) (w : World) (perPage : Int) (err : Error),
      client.RepositoriesList w.calls
        ⟨"owner,collaborator,organization_member", k, perPage⟩ = .error err →
      handleRepositories client (fuel + 1) w k perPage
        = ({ w with calls := w.calls ++
              [.RepositoriesList ⟨"owner,collaborator,organization_member", k, perPage⟩] },
            .returned (some err))) ∧
    ∃ wk : World,
      main client ps.length w0 = (wk, .outOfFuel) ∧
      wk.calls = w0.calls ++ [.UsersGet] ++ requested 100 ps ∧
      ∀ fuel, ps.length + 1 ≤ fuel →
        handleRepositories client fuel
            (({ w0.call .UsersGet with orgs := w0.orgs ++ [username] }).logAt .Debug []
              "Getting repositories...") 1 100
          = ({ wk with calls := wk.calls ++
                [.RepositoriesList ⟨"owner,collaborator,organization_member", k, 100⟩] },
              .returned (some e)) ∧
        main client fuel w0
          = ({ wk with
                calls := wk.calls ++
                  [.RepositoriesList ⟨"owner,collaborator,organization_member", k, 100⟩]
                log := wk.log ++ [⟨.Fatal, [], e⟩] }, .exited 1) ∧
        exitCode (main client fuel w0).2 = some 1 := by
  constructor
  · intro fuel w perPage err h
    have h1 : client.RepositoriesList w.calls (listOptions k perPage) = .error err := h
    simp only [handleRepositories, h1, World.call]
    rfl
  · obtain ⟨hcalls, hout⟩ := main_run client (ps.length + 1) w0 username hget
    obtain ⟨_, hout0⟩ := main_run client ps.length w0 username hget
    rw [hcalls] at hmade
    obtain ⟨wk, h0, hwk, h1⟩ := failing_call_run client 100 k e ps
      (({ w0.call .UsersGet with orgs := w0.orgs ++ [username] }).logAt .Debug []
        "Getting repositories...") 1
      (by rw [hmade]; simp [World.logAt, World.call])
      (by simpa [World.logAt, World.call] using hfail)
    refine ⟨wk, hout0 wk h0, by rw [hwk]; simp [World.logAt, World.call], ?_⟩
    intro fuel hfuel
    have hrun : handleRepositories client fuel
        (({ w0.call .UsersGet with orgs := w0.orgs ++ [username] }).logAt .Debug []
          "Getting repositories...") 1 100
        = ({ wk with calls := wk.calls ++
              [.RepositoriesList ⟨"owner,collaborator,organization_member", k, 100⟩] },
            .returned (some e)) := by
      rw [handleRepositories_mono client 100 (ps.length + 1) _ 1 fuel (by rw [h1]; simp) hfuel,
        h1]
      rfl
    have hmain : main client fuel w0
        = ({ wk with
              calls := wk.calls ++
                [.RepositoriesList ⟨"owner,collaborator,organization_member", k, 100⟩]
              log := wk.log ++ [⟨.Fatal, [], e⟩] }, .exited 1) := by
      have h2 := hrun
      simp only [World.logAt, World.call] at h2
      simp only [main, hget, World.logAt, World.call, h2]
    exact ⟨hrun, hmain, by rw [hmain]; rfl⟩

/-- Witness of claim C7: the listing answers page 1 and fails on page 2. -/
theorem fetch_error_is_fatal_witness :
    ∃ wk : World,
      main (scriptedClient "alice" [([repoR1], ⟨2, 2⟩)]) [(1 : Int)].length scenarioWorld
        = (wk, .outOfFuel) ∧
      wk.calls = scenarioWorld.calls ++ [.UsersGet] ++ requested 100 [1] ∧
      ∀ fuel, [(1 : Int)].length + 1 ≤ fuel →
        handleRepositories (scriptedClient "alice" [([repoR1], ⟨2, 2⟩)]) fuel
            (({ scenarioWorld.call .UsersGet with orgs := scenarioWorld.orgs ++ ["alice"] }).logAt
              .Debug [] "Getting repositories...") 1 100
          = ({ wk with calls := wk.calls ++
                [.RepositoriesList ⟨"owner,collaborator,organization_member", 2, 100⟩] },
              .returned (some "no more pages")) ∧
        main (scriptedClient "alice" [([repoR1], ⟨2, 2⟩)]) fuel scenarioWorld
          = ({ wk with
                calls := wk.calls ++
                  [.RepositoriesList ⟨"owner,collaborator,organization_member", 2, 100⟩]
                log := wk.log ++ [⟨.Fatal, [], "no more pages"⟩] }, .exited 1) ∧
        exitCode (main (scriptedClient "alice" [([repoR1], ⟨2, 2⟩)]) fuel scenarioWorld).2
          = some 1 :=
  (fetch_error_is_fatal (scriptedClient "alice" [([repoR1], ⟨2, 2⟩)]) scenarioWorld "alice"
    [1] 2 "no more pages" rfl (by decide) rfl).2

/-- Claim C6 at a failing input: with a first record whose owner is missing, the run
panics while handling it; alice/r1, next in the batch, is never handled and page 2 is never
fetched, whereas the same listing without the bad record reports r1 and fetches page 2. -/
theorem bad_record_aborts_run :
    program "" scenarioArgs (scriptedClient "alice" brokenScript) 5
      = ({ token := "secret", orgs := ["alice"], debug := false, logLevel := .Info,
           calls := [.UsersGet, .RepositoriesList (listOptions 1 100)],
           log := [⟨.Debug, [], "Getting repositories..."⟩,
                   ⟨.Debug, [], "Handling repo alice/r0..."⟩],
           stderr := [] }, .panicked) ∧
    (program "" scenarioArgs (scriptedClient "alice" soundScript) 5).2 = .returned () ∧
    (program "" scenarioArgs (scriptedClient "alice" soundScript) 5).1.calls
      = [.UsersGet, .RepositoriesList (listOptions 1 100), .RepositoriesList (listOptions 2 100)] ∧
    (program "" scenarioArgs (scriptedClient "alice" soundScript) 5).1.log
      = [⟨.Debug, [], "Getting repositories..."⟩,
         ⟨.Debug, [], "Handling repo alice/r1..."⟩,
         ⟨.Info, [("owner", "alice"), ("name", "r1")], "Open Issues Count: 3"⟩,
         ⟨.Debug, [], "Handling repo bob/r2..."⟩] := by
  decide


/-! ## Startup -/

/-- Claim C8: the token `init` resolves is the `-token` value, or the environment variable
when the flag is absent; when it is empty the process exits with code 1 without a single
API call; when it is not empty `init` returns and `main` runs. -/
theorem empty_token_exits (env : String) (args : Args) (client : Client) (fuel : Nat) :
    (init env args).1.token = args.token.getD env ∧
    (args.token.getD env = "" →
      (program env args client fuel).2 = .exited 1 ∧
      exitCode (program env args client fuel).2 = some 1 ∧
      (program env args client fuel).1.calls = []) ∧
    (args.token.getD env ≠ "" →
      (init env args).2 = .returned () ∧
      program env args client fuel = main client fuel (init env args).1) := by
  refine ⟨?_, ?_, ?_⟩
  · unfold init; dsimp only; split <;> rfl
  · intro h
    simp [program, init, h, exitCode]
  · intro h
    simp [program, init, h]

/-- Witness of claim C8: no flag and an empty environment variable; then `-token secret`. -/
theorem empty_token_exits_witness :
    ((program "" ⟨none, ["acme"], false⟩ (failingClient "alice" "boom") 5).2 = .exited 1 ∧
      exitCode (program "" ⟨none, ["acme"], false⟩ (failingClient "alice" "boom") 5).2 = some 1 ∧
      (program "" ⟨none, ["acme"], false⟩ (failingClient "alice" "boom") 5).1.calls = []) ∧
    ((init "" scenarioArgs).2 = .returned () ∧
      program "" scenarioArgs (failingClient "alice" "boom") 5
        = main (failingClient "alice" "boom") 5 (init "" scenarioArgs).1) :=
  ⟨(empty_token_exits "" ⟨none, ["acme"], false⟩ (failingClient "alice" "boom") 5).2.1 rfl,
   (empty_token_exits "" scenarioArgs (failingClient "alice" "boom") 5).2.2 (by decide)⟩

/-- Claim C9: with a non-empty token and a current user whose login is `login`, whatever
the `-orgs` values, the organization set when the first page is about to be fetched (fuel 0:
the only call made is get-current-user) and after any number of pages (any fuel) is the
`-orgs` values followed by `login`; so it contains `login`, pagination never changes it,
and every repository owned by `login` passes `shouldHandleRepo`. -/
theorem orgs_contains_login (env : String) (args : Args) (client : Client) (login : String)
    (htoken : args.token.getD env ≠ "")
    (hget : client.UsersGet [] = .ok ⟨some login⟩) :
    (program env args client 0).1.calls = [.UsersGet] ∧
    (program env args client 0).2 = .outOfFuel ∧
    ∀ fuel : Nat,
      (program env args client fuel).1.orgs = args.orgs ++ [login] ∧
      login ∈ (program env args client fuel).1.orgs ∧
      ∀ repo : Repository, repo.ownerLogin = some login →
        shouldHandleRepo (program env args client fuel).1.orgs repo = some true := by
  have hprog : ∀ fuel, program env args client fuel = main client fuel
      { token := args.token.getD env, orgs := args.orgs, debug := args.d,
        logLevel := if args.d then .Debug else .Info, calls := [], log := [], stderr := [] } := by
    intro fuel
    simp [program, init, htoken, foldl_Set]
  refine ⟨?_, ?_, ?_⟩
  · rw [hprog]; simp [main, hget, handleRepositories, World.logAt, World.call]
  · rw [hprog]; simp [main, hget, handleRepositories]
  · intro fuel
    have horgs : (program env args client fuel).1.orgs = args.orgs ++ [login] := by
      rw [hprog, main_orgs client fuel _ login hget]
    refine ⟨horgs, by simp [horgs], fun repo hrepo => ?_⟩
    rw [horgs]
    unfold shouldHandleRepo
    rw [shouldHandleRepo_loop_of_login repo login hrepo]
    simp

/-- Witness of claim C9: duplicated and empty `-orgs` values, user alice. -/
theorem orgs_contains_login_witness :
    (program "secret" ⟨none, ["acme", "", "acme"], true⟩
        (scriptedClient "alice" soundScript) 0).1.calls = [.UsersGet] ∧
    (program "secret" ⟨none, ["acme", "", "acme"], true⟩
        (scriptedClient "alice" soundScript) 0).2 = .outOfFuel ∧
    ∀ fuel : Nat,
      (program "secret" ⟨none, ["acme", "", "acme"], true⟩
          (scriptedClient "alice" soundScript) fuel).1.orgs = ["acme", "", "acme"] ++ ["alice"] ∧
      "alice" ∈ (program "secret" ⟨none, ["acme", "", "acme"], true⟩
          (scriptedClient "alice" soundScript) fuel).1.orgs ∧
      ∀ repo : Repository, repo.ownerLogin = some "alice" →
        shouldHandleRepo (program "secret" ⟨none, ["acme", "", "acme"], true⟩
          (scriptedClient "alice" soundScript) fuel).1.orgs repo = some true :=
  orgs_contains_login "secret" ⟨none, ["acme", "", "acme"], true⟩
    (scriptedClient "alice" soundScript) "alice" (by decide) rfl


end Ghstatus
